import Mathlib

/-!
# papertrail/go-tail, package `follower`: `File` and `fsnWrap`

A shallow embedding of `follower/file.go` and `follower/fsnwrap.go`.

* Go `error` values are `Error := Option Err`; `none` is `nil`.
* The buffered channel `wakeCh` (capacity 1) and the signal channel `done` are
  explicit state; a `panic` of the Go runtime is the result `none`.
* Everything the operating system or another goroutine decides (results of raw
  reads, of `os.Stat`, of `os.SameFile`, of a parked `select`) is supplied by
  an `OS` record, indexed by the iteration of the read loop.
* `Read` can loop for ever, so it carries fuel; every step of the loop costs one.
* `Read` also returns the list of external calls it made (`Event`), so that
  statements about how often something is called can be written down.
-/

namespace Follower

/-! ## Errors and channels -/

/-- A non-nil Go error value. `EOF` is `io.EOF`; any other error is told apart by a code. -/
inductive Err where
  | EOF
  | other (code : Nat)
deriving DecidableEq, Repr

/-- A Go `error`: `none` is `nil`. -/
abbrev Error := Option Err

/-- State of a `chan error` made with capacity 1: the slot, and whether the channel is closed. -/
structure Chan where
  buf : Option Error
  closed : Bool
deriving DecidableEq, Repr

/-- Channel as returned by `make(chan error, 1)`. -/
def Chan.make : Chan := ⟨none, false⟩

/-- Receive case of a `select`: `some (v, ok, c)` when the case is ready (a buffered value, or
the zero value `nil` with `ok = false` from a closed and drained channel), `none` when a
receive would park. -/
def Chan.recv (c : Chan) : Option (Error × Bool × Chan) :=
  match c.buf with
  | some v => some (v, true, { c with buf := none })
  | none => if c.closed then some (none, false, c) else none

/-- Outcome of a send case in a `select` that has a `default`. -/
inductive SendResult where
  | sent (c : Chan)
  | full
  | panicked
deriving DecidableEq, Repr

/-- Send case of `select { case ch <- v: default: }`: sending on a closed channel panics. -/
def Chan.trySend (c : Chan) (v : Error) : SendResult :=
  if c.closed then .panicked
  else match c.buf with
    | none => .sent { c with buf := some v }
    | some _ => .full

/-- Go `close(ch)`: closing a closed channel panics. -/
def Chan.close (c : Chan) : Option Chan :=
  if c.closed then none else some { c with closed := true }

/-- State of the `done chan struct{}` field: nothing is ever sent on it. -/
inductive Done where
  | nil
  | opened
  | closed
deriving DecidableEq, Repr

/-- Go `close(f.done)`: closing a nil or a closed channel panics. -/
def Done.close : Done → Option Done
  | .opened => some .closed
  | _ => none

/-! ## fsnwrap.go -/

/-- What the model keeps of a `*fsnotify.Watcher`: the registered paths and whether it was closed. -/
structure Watcher where
  paths : List String
  closed : Bool
deriving DecidableEq, Repr

/-- The struct `fsnWrap`. `watch = none` is the nil pointer. -/
structure fsnWrap where
  wakeCh : Chan
  watch : Option Watcher
  done : Done
deriving DecidableEq, Repr

/-- The function `newFsnWrap`. -/
def newFsnWrap : fsnWrap := ⟨Chan.make, none, .nil⟩

/-- The method `fsnWrap.wake`. `none` is a panic (send on a closed channel). -/
def fsnWrap.wake (f : fsnWrap) (err : Error) : Option fsnWrap :=
  let drained : Error × Chan :=
    if err ≠ none then
      match f.wakeCh.recv with
      | some (oldErr, _, ch) => (if oldErr ≠ none then oldErr else err, ch)
      | none => (err, f.wakeCh)
    else (err, f.wakeCh)
  match drained.2.trySend drained.1 with
  | .sent ch => some { f with wakeCh := ch }
  | .full => some { f with wakeCh := drained.2 }
  | .panicked => none

/-- How a `select` that found no case ready ends: a concurrent `wake` hands a value to the
parked receiver, or the timer of `time.After(poll)` fires. -/
inductive Wakeup where
  | notified (err : Error)
  | timeout
deriving DecidableEq, Repr

/-- The case of the `select` in `wait` that returned; `timer` carries `poll` in seconds. -/
inductive Branch where
  | wakeCh
  | timer (poll : Nat)
deriving DecidableEq, Repr

/-- Result of one call of `wait`. -/
structure WaitResult where
  err : Error
  branch : Branch
  fsn : fsnWrap
deriving DecidableEq, Repr

/-- The method `fsnWrap.wait`. A ready receive on `wakeCh` is taken at once (the timer, of one
second at least, has not fired yet); otherwise the call parks and `parked` says how it ends. -/
def fsnWrap.wait (f : fsnWrap) (parked : Wakeup) : WaitResult :=
  let poll : Nat := if f.watch = none then 1 else 60
  match f.wakeCh.recv with
  | some (err, _, ch) => ⟨err, .wakeCh, { f with wakeCh := ch }⟩
  | none =>
    match parked with
    | .notified err => ⟨err, .wakeCh, f⟩
    | .timeout => ⟨none, .timer poll, f⟩

/-- The method `fsnWrap.close`; `watchErr` is what `f.watch.Close()` returns. `none` is a panic. -/
def fsnWrap.close (f : fsnWrap) (watchErr : Error) : Option (Error × fsnWrap) :=
  match f.watch with
  | some w =>
    match f.done.close with
    | some d => some (watchErr, { f with watch := some { w with closed := true }, done := d })
    | none => none
  | none =>
    match f.wakeCh.close with
    | some ch => some (none, { f with wakeCh := ch })
    | none => none

/-- The method `fsnWrap.add`; `newErr` is the error of `fsnotify.NewWatcher()` and `addErr` the
error of `watch.Add(name)`. On success of the first registration the merge loop `eat` starts. -/
def fsnWrap.add (f : fsnWrap) (name : String) (newErr addErr : Error) : Error × fsnWrap :=
  match f.watch with
  | some w =>
    (addErr, if addErr = none then { f with watch := some { w with paths := name :: w.paths } }
             else f)
  | none =>
    let err : Error := if newErr = none then addErr else newErr
    if err = none then (none, { f with watch := some ⟨[name], false⟩, done := .opened })
    else (err, f)

/-- One item drained by the `select` of `eat`. -/
inductive Drained where
  | error (err : Error)
  | errorsClosed
  | event
  | eventsClosed
  | done
deriving DecidableEq, Repr

/-- The pair `(err, ok)` after the `select` of `eat` took the item. -/
def Drained.result : Drained → Error × Bool
  | .error err => (err, true)
  | .errorsClosed => (none, false)
  | .event => (none, true)
  | .eventsClosed => (none, false)
  | .done => (none, false)

/-- Where the goroutine `eat` stands. -/
inductive EatState where
  | running (f : fsnWrap)
  | exited (f : fsnWrap)
  | panicked
deriving DecidableEq, Repr

/-- The method `fsnWrap.eat`, run on the items its `select` drains, in order. The case on
`f.done` is ready only once `done` is closed; with nothing ready the goroutine stays parked. -/
def fsnWrap.eat (f : fsnWrap) : List Drained → EatState
  | [] => .running f
  | d :: ds =>
    if d = .done ∧ f.done ≠ .closed then .running f
    else
      match f.wake d.result.1 with
      | none => .panicked
      | some f1 =>
        if d.result.2 then f1.eat ds
        else
          match f1.wakeCh.close with
          | some ch => .exited { f1 with wakeCh := ch }
          | none => .panicked

/-! ## file.go -/

/-- What the model keeps of an `os.FileInfo`: `Size()` and the data `os.SameFile` looks at. -/
structure FileInfo where
  size : Int
  sys : Nat
deriving DecidableEq, Repr

/-- What the model keeps of the `*os.File`: whether `Close` was called on it. -/
structure OsFile where
  closed : Bool
deriving DecidableEq, Repr

/-- The struct `File` (the mutex is not state of the sequential model). `info = none` is a nil
`os.FileInfo`. -/
structure File where
  file : OsFile
  info : Option FileInfo
  name : String
  pos : Int
  fsn : fsnWrap
deriving DecidableEq, Repr

/-- The environment of one `Read` call: `sameFile` is `os.SameFile`, `closedErr` the error a
read on a closed handle reports, `read k` the result of the raw read of iteration `k` on an
open handle, `stat k` the result of the `os.Stat` of iteration `k`, and `parked k` the way a
parked `wait` of iteration `k` ends. -/
structure OS where
  sameFile : FileInfo → FileInfo → Bool
  closedErr : Err
  read : Nat → Nat × Error
  stat : Nat → Except Err FileInfo
  parked : Nat → Wakeup

/-- Value of an `int64` after an addition: two's complement wrap-around. -/
def wrap64 (x : Int) : Int := (x + 2 ^ 63) % 2 ^ 64 - 2 ^ 63

/-- The values an `int64` can hold. -/
def isInt64 (x : Int) : Prop := -(2 ^ 63) ≤ x ∧ x < 2 ^ 63

instance (x : Int) : Decidable (isInt64 x) := by unfold isInt64; infer_instance

/-- The function `Open`; `openErr` is the error of `os.Open` and `stat` the result of
`file.Stat()`. -/
def Open (name : String) (openErr : Error) (stat : Except Err FileInfo) : Except Err File :=
  match openErr with
  | some e => .error e
  | none =>
    match stat with
    | .error e => .error e
    | .ok info => .ok ⟨⟨false⟩, some info, name, 0, newFsnWrap⟩

/-- The method `File.Close`; `closeErr` is what `f.file.Close()` returns and `watchErr` what
the watcher's `Close` returns. `none` is a panic. -/
def File.Close (f : File) (closeErr watchErr : Error) : Option (Error × File) :=
  match f.fsn.close watchErr with
  | some (_, fsn) => some (closeErr, { f with file := ⟨true⟩, fsn := fsn })
  | none => none

/-- The raw `f.file.Read(b)` of iteration `k`. -/
def OsFile.Read (h : OsFile) (os : OS) (k : Nat) : Nat × Error :=
  if h.closed then (0, some os.closedErr) else os.read k

/-- The method `File.isFresh`; `stat` is the result of `os.Stat(f.name)`. -/
def File.isFresh (f : File) (sameFile : FileInfo → FileInfo → Bool)
    (stat : Except Err FileInfo) : Bool :=
  match f.info with
  | none => true
  | some snapshot =>
    match stat with
    | .error _ => true
    | .ok info =>
      if info.size < f.pos && info.size > 0 then false
      else if !sameFile info snapshot && info.size > 0 then false
      else true

/-- An external call made by `Read`, with its result. -/
inductive Event where
  | rawRead (n : Nat) (err : Error)
  | isFresh (verdict : Bool)
  | wait (branch : Branch) (err : Error)
deriving DecidableEq, Repr

/-- What a `Read` call leaves: the pair `(n, err)`, the file afterwards, and the calls made. -/
structure ReadResult where
  n : Nat
  err : Error
  file : File
  trace : List Event
deriving DecidableEq, Repr

/-- Adds earlier events in front of a result. -/
def ReadResult.after (es : List Event) (r : ReadResult) : ReadResult :=
  { r with trace := es ++ r.trace }

/-- A point of the loop of `Read`: the head of the `for`, with the value of `fresh`, or the
call `f.fsn.wait()`. -/
inductive Pc where
  | top (fresh : Bool)
  | atWait
deriving DecidableEq, Repr

/-- The loop of `File.Read`, entered at `pc` in iteration `k`. `none`: the fuel ran out. -/
def File.readFrom (os : OS) : Nat → Pc → Nat → File → Option ReadResult
  | 0, _, _, _ => none
  | fuel + 1, .top fresh, k, f =>
    let r := f.file.Read os k
    if !fresh || r.1 != 0 || r.2 != some Err.EOF then
      some ⟨r.1, r.2, { f with pos := wrap64 (f.pos + r.1) }, [.rawRead r.1 r.2]⟩
    else
      let fresh1 := f.isFresh os.sameFile (os.stat k)
      if fresh1 then
        (File.readFrom os fuel .atWait k f).map (ReadResult.after [.rawRead r.1 r.2, .isFresh true])
      else
        (File.readFrom os fuel (.top false) (k + 1) f).map
          (ReadResult.after [.rawRead r.1 r.2, .isFresh false])
  | fuel + 1, .atWait, k, f =>
    let w := f.fsn.wait (os.parked k)
    if w.err ≠ none then
      some ⟨0, w.err, { f with fsn := w.fsn }, [.wait w.branch w.err]⟩
    else
      (File.readFrom os fuel (.top true) (k + 1) { f with fsn := w.fsn }).map
        (ReadResult.after [.wait w.branch w.err])

/-- The method `File.Read`. -/
def File.Read (f : File) (os : OS) (fuel : Nat) : Option ReadResult :=
  File.readFrom os fuel (.top true) 0 f

/-- The method `File.Seek`; `ret` and `err` are what `f.file.Seek(offset, whence)` returns. -/
def File.Seek (f : File) (_offset : Int) (_whence : Int) (ret : Int) (err : Error) :
    Int × Error × File :=
  (ret, err, if err = none then { f with pos := ret } else f)

/-- The method `File.Watch`. -/
def File.Watch (f : File) (newErr addErr : Error) : Error × File :=
  let r := f.fsn.add f.name newErr addErr
  (r.1, { f with fsn := r.2 })

/-! ## Sequences of calls -/

/-- Several calls of `wake` in a row, as the merge loop makes them; `none` is a panic. -/
def fsnWrap.wakes (f : fsnWrap) : List Error → Option fsnWrap
  | [] => some f
  | err :: errs =>
    match f.wake err with
    | some f1 => f1.wakes errs
    | none => none

/-- The first non-nil error of a list of wake values, `nil` when there is none. -/
def firstError (vs : List Error) : Error := vs.findSome? id

/-- An operation on a coordinator, with what its environment decides. -/
inductive Op where
  | wait (parked : Wakeup)
  | wake (err : Error)
  | add (name : String) (newErr addErr : Error)
  | close (watchErr : Error)
  | eat (items : List Drained)
deriving DecidableEq, Repr

/-- The coordinator after an operation; `none` is a panic, which ends the program. -/
def fsnWrap.step (f : fsnWrap) : Op → Option fsnWrap
  | .wait parked => some (f.wait parked).fsn
  | .wake err => f.wake err
  | .add name newErr addErr => some (f.add name newErr addErr).2
  | .close watchErr => (f.close watchErr).map Prod.snd
  | .eat items =>
    match f.eat items with
    | .running f1 => some f1
    | .exited f1 => some f1
    | .panicked => none

/-- The results of the `wait` calls among a sequence of operations, in order. -/
def fsnWrap.waits (f : fsnWrap) : List Op → List WaitResult
  | [] => []
  | op :: ops =>
    let here : List WaitResult :=
      match op with
      | .wait parked => [f.wait parked]
      | _ => []
    match f.step op with
    | some f1 => here ++ f1.waits ops
    | none => here

/-- A call of `Read` or `Seek` on a `File`, with what its environment decides. -/
inductive Call where
  | read (os : OS) (fuel : Nat)
  | seek (offset whence ret : Int) (err : Error)

/-- What a call of `Read` or `Seek` returned. -/
inductive Returned where
  | read (n : Nat) (err : Error)
  | seek (ret : Int) (err : Error)
deriving DecidableEq, Repr

/-- A sequence of `Read` and `Seek` calls: the file afterwards and what the calls returned.
`none`: a `Read` did not return within its fuel. -/
def File.calls (f : File) : List Call → Option (File × List Returned)
  | [] => some (f, [])
  | .read os fuel :: cs =>
    match f.Read os fuel with
    | none => none
    | some r => (r.file.calls cs).map fun p => (p.1, .read r.n r.err :: p.2)
  | .seek offset whence ret err :: cs =>
    ((f.Seek offset whence ret err).2.2.calls cs).map fun p =>
      (p.1, .seek (f.Seek offset whence ret err).1 (f.Seek offset whence ret err).2.1 :: p.2)

/-- Bookkeeping of the claim about `pos`: the pair of the result of the last successful `Seek`
so far and the sum of the `n` returned by the `Read` calls since. -/
def account : Int × Int → Returned → Int × Int
  | (base, sum), .read n _ => (base, sum + n)
  | (_, _), .seek ret none => (ret, 0)
  | (base, sum), .seek _ (some _) => (base, sum)

/-- The pair of `account` after a whole sequence of calls on a file opened at position 0. -/
def accounted (log : List Returned) : Int × Int := log.foldl account (0, 0)

/-- The results of the successful `Seek` calls of a sequence. -/
def seekResults : List Returned → List Int
  | [] => []
  | .seek ret none :: log => ret :: seekResults log
  | _ :: log => seekResults log

/-! ## The traces of `Read` -/

/-- The traces the loop of `Read` can leave when entered at a given point, with the pair
`(n, err)` it returns: a raw read whose result is returned; an end of file followed by a
check that says fresh and a `wait`; an end of file followed by a check that says not fresh
and one more raw read; a `wait` that fails; a `wait` that succeeds and a new iteration. -/
inductive Shape : Pc → List Event → Nat → Error → Prop where
  | last (fresh : Bool) (n : Nat) (err : Error)
      (h : fresh = false ∨ n ≠ 0 ∨ err ≠ some Err.EOF) :
      Shape (.top fresh) [.rawRead n err] n err
  | fresh {t : List Event} {n : Nat} {err : Error} (h : Shape .atWait t n err) :
      Shape (.top true) (.rawRead 0 (some Err.EOF) :: .isFresh true :: t) n err
  | stale {t : List Event} {n : Nat} {err : Error} (h : Shape (.top false) t n err) :
      Shape (.top true) (.rawRead 0 (some Err.EOF) :: .isFresh false :: t) n err
  | failed (b : Branch) (err : Error) (h : err ≠ none) : Shape .atWait [.wait b err] 0 err
  | woken (b : Branch) {t : List Event} {n : Nat} {err : Error} (h : Shape (.top true) t n err) :
      Shape .atWait (.wait b none :: t) n err

/-! ## Counting in traces -/

/-- Number of evaluations of `isFresh` recorded in a trace. -/
def freshnessChecks (t : List Event) : Nat :=
  t.countP fun e => match e with
    | .isFresh _ => true
    | _ => false

/-- Number of raw reads in a trace that gave 0 bytes with `io.EOF`. -/
def eofReads (t : List Event) : Nat :=
  t.countP fun e => decide (e = .rawRead 0 (some Err.EOF))

/-- Number of raw reads giving 0 bytes with `io.EOF` made before any check judged the file not
fresh. -/
def eofReadsWhileFresh (t : List Event) : Nat :=
  eofReads (t.takeWhile fun e => decide (e ≠ .isFresh false))

/-! ## Concrete scenarios -/

/-- An `os.SameFile` that compares the identity numbers. -/
def sameSys (a b : FileInfo) : Bool := a.sys == b.sys

/-- The file `log`, opened while empty, with identity 1. -/
def openedLog : File := ⟨⟨false⟩, some ⟨0, 1⟩, "log", 0, newFsnWrap⟩

/-- The file `log` after 10 bytes were read from it. -/
def logAt10 : File := { openedLog with pos := 10 }

/-- A `Read` with a buffer of length 0: the raw read of an `os.File` gives `(0, nil)`. -/
def emptyBufferOS : OS :=
  ⟨sameSys, .other 9, fun _ => (0, none), fun _ => .ok ⟨0, 1⟩, fun _ => .timeout⟩

/-- A `Read` that gets 5 bytes at once. -/
def fiveBytesOS : OS :=
  ⟨sameSys, .other 9, fun _ => (5, none), fun _ => .ok ⟨5, 1⟩, fun _ => .timeout⟩

/-- Rotation with a late write: `log` was renamed and created anew with 5 bytes (identity 2);
the first raw read is at end of file, then 3 more bytes reach the renamed file. -/
def lateWriteOS : OS :=
  ⟨sameSys, .other 9, fun k => if k = 0 then (0, some .EOF) else (3, none),
    fun _ => .ok ⟨5, 2⟩, fun _ => .timeout⟩

/-- Rotation seen at the second end of file: at first `log` is unchanged (10 bytes, identity
1), the wait ends by its timer, then `log` is a new file of 5 bytes (identity 2). -/
def secondCheckOS : OS :=
  ⟨sameSys, .other 9, fun _ => (0, some .EOF),
    fun k => if k = 0 then .ok ⟨10, 1⟩ else .ok ⟨5, 2⟩, fun _ => .timeout⟩

/-- An unchanged `log` at end of file, every wait ending by its timer. -/
def idleOS : OS :=
  ⟨sameSys, .other 9, fun _ => (0, some .EOF), fun _ => .ok ⟨10, 1⟩, fun _ => .timeout⟩

/-- A coordinator with a watch whose merge loop has passed on an `io.EOF` from the watcher's
error channel. -/
def eofPending : fsnWrap := ⟨⟨some (some .EOF), false⟩, some ⟨["log"], false⟩, .opened⟩

/-- The file `log` at position 10 with the coordinator `eofPending`. -/
def logEofPending : File := { logAt10 with fsn := eofPending }

/-- The coordinator of a fresh `File` after `Watch` succeeded. -/
def watching : fsnWrap := ⟨Chan.make, some ⟨["log"], false⟩, .opened⟩

/-- The coordinator `watching` after `close` and after the merge loop drained `done`. -/
def watchingClosed : fsnWrap := ⟨⟨some none, true⟩, some ⟨["log"], true⟩, .closed⟩

/-- The coordinator of a fresh `File` after `close`. -/
def pollingClosed : fsnWrap := ⟨⟨none, true⟩, none, .nil⟩

/-- The file `log` at position 10 after `Close`. -/
def closedLog : File := { logAt10 with file := ⟨true⟩, fsn := pollingClosed }

/-! ## C1: the freshness check -/

/-- C1: `isFresh` returns false exactly when the open-time snapshot is present, the live stat
succeeds, the live size is positive, and the live size is below `pos` or the live file is not
the snapshot's file. It returns true when the snapshot is absent, when the live stat fails, when
the live size is 0, and when the file is the same with a live size of at least `pos`. -/
theorem isFresh_false_iff (f : File) (sameFile : FileInfo → FileInfo → Bool)
    (stat : Except Err FileInfo) :
    (f.isFresh sameFile stat = false ↔
      ∃ snapshot live, f.info = some snapshot ∧ stat = .ok live ∧ live.size > 0 ∧
        (live.size < f.pos ∨ sameFile live snapshot = false)) ∧
    (f.info = none → f.isFresh sameFile stat = true) ∧
    (∀ e, stat = .error e → f.isFresh sameFile stat = true) ∧
    (∀ live, stat = .ok live → live.size = 0 → f.isFresh sameFile stat = true) ∧
    (∀ snapshot live, f.info = some snapshot → stat = .ok live →
      sameFile live snapshot = true → f.pos ≤ live.size → f.isFresh sameFile stat = true) := by
  refine ⟨?_, ?_, ?_, ?_, ?_⟩
  · unfold File.isFresh
    cases hi : f.info with
    | none => simp
    | some snapshot =>
      cases stat with
      | error e => simp
      | ok live =>
        simp only [Option.some.injEq, Except.ok.injEq, exists_and_left, exists_eq_left']
        by_cases h1 : live.size < f.pos <;> by_cases h2 : live.size > 0 <;>
          cases h3 : sameFile live snapshot <;> simp [h1, h2, h3]
  · intro h; simp [File.isFresh, h]
  · intro e h; subst h; unfold File.isFresh; cases f.info <;> simp
  · intro live h h0; subst h; unfold File.isFresh; cases f.info <;> simp [h0]
  · intro snapshot live hi h hs hp
    subst h
    have : ¬ live.size < f.pos := not_lt.mpr hp
    simp [File.isFresh, hi, hs, this]

/-- C1, at `log`: a live size of 5 below the position 10 is a truncation, and a new file that
is still empty is not yet a replacement. -/
theorem isFresh_false_iff_witness :
    logAt10.isFresh sameSys (.ok ⟨5, 1⟩) = false ∧ openedLog.isFresh sameSys (.ok ⟨0, 2⟩) = true :=
  ⟨(isFresh_false_iff logAt10 sameSys (.ok ⟨5, 1⟩)).1.mpr
      ⟨⟨0, 1⟩, ⟨5, 1⟩, rfl, rfl, by decide, Or.inl (by decide)⟩,
    (isFresh_false_iff openedLog sameSys (.ok ⟨0, 2⟩)).2.2.2.1 ⟨0, 2⟩ rfl rfl⟩

/-! ## The loop of `Read` -/

theorem readFrom_top_false {os : OS} {fuel k : Nat} {f : File} {r : ReadResult}
    (h : File.readFrom os fuel (.top false) k f = some r) :
    r.trace = [.rawRead r.n r.err] ∧ f.file.Read os k = (r.n, r.err) ∧
      r.file = { f with pos := wrap64 (f.pos + r.n) } := by
  cases fuel with
  | zero => simp [File.readFrom] at h
  | succ fuel =>
    simp only [File.readFrom, Bool.not_false, Bool.true_or, if_true, Option.some.injEq] at h
    subst h
    simp

theorem exit_after {os : OS} {f : File} (es : List Event) (r : ReadResult)
    (h : (∃ pre j, r.trace = pre ++ [.rawRead r.n r.err] ∧ f.file.Read os j = (r.n, r.err)) ∨
      (∃ pre b, r.trace = pre ++ [.wait b r.err] ∧ r.n = 0 ∧ r.err ≠ none)) :
    (∃ pre j, (r.after es).trace = pre ++ [.rawRead (r.after es).n (r.after es).err] ∧
        f.file.Read os j = ((r.after es).n, (r.after es).err)) ∨
      (∃ pre b, (r.after es).trace = pre ++ [.wait b (r.after es).err] ∧ (r.after es).n = 0 ∧
        (r.after es).err ≠ none) := by
  rcases h with ⟨pre, j, ht, hr⟩ | ⟨pre, b, ht, hn, he⟩
  · exact Or.inl ⟨es ++ pre, j, by simp [ReadResult.after, ht], hr⟩
  · exact Or.inr ⟨es ++ pre, b, by simp [ReadResult.after, ht], hn, he⟩

/-- The pair returned by the loop is the result of a raw read, passed on as it is, or `0` with
the non-nil error of a `wait`. -/
theorem readFrom_exit {os : OS} (fuel : Nat) :
    ∀ (pc : Pc) (k : Nat) (f : File) (r : ReadResult),
      File.readFrom os fuel pc k f = some r →
      (∃ pre j, r.trace = pre ++ [.rawRead r.n r.err] ∧ f.file.Read os j = (r.n, r.err)) ∨
      (∃ pre b, r.trace = pre ++ [.wait b r.err] ∧ r.n = 0 ∧ r.err ≠ none) := by
  induction fuel with
  | zero => intro pc k f r h; simp [File.readFrom] at h
  | succ fuel ih =>
    intro pc k f r h
    cases pc with
    | top fresh =>
      simp only [File.readFrom] at h
      split at h
      · simp only [Option.some.injEq] at h
        subst h
        exact Or.inl ⟨[], k, by simp, rfl⟩
      · split at h
        · obtain ⟨r1, h1, rfl⟩ := Option.map_eq_some'.mp h
          exact exit_after _ _ (ih _ _ _ _ h1)
        · obtain ⟨r1, h1, rfl⟩ := Option.map_eq_some'.mp h
          exact exit_after _ _ (ih _ _ _ _ h1)
    | atWait =>
      simp only [File.readFrom] at h
      split at h
      · rename_i hw
        simp only [Option.some.injEq] at h
        subst h
        exact Or.inr ⟨[], (f.fsn.wait (os.parked k)).branch, by simp, rfl, hw⟩
      · obtain ⟨r1, h1, rfl⟩ := Option.map_eq_some'.mp h
        have h2 := ih _ _ _ _ h1
        exact exit_after _ _ h2

theorem readFrom_top (os : OS) (fuel : Nat) (fresh : Bool) (k : Nat) (f : File) :
    File.readFrom os (fuel + 1) (.top fresh) k f =
      if !fresh || (f.file.Read os k).1 != 0 || (f.file.Read os k).2 != some Err.EOF then
        some ⟨(f.file.Read os k).1, (f.file.Read os k).2,
          { f with pos := wrap64 (f.pos + (f.file.Read os k).1) },
          [.rawRead (f.file.Read os k).1 (f.file.Read os k).2]⟩
      else if f.isFresh os.sameFile (os.stat k) then
        (File.readFrom os fuel .atWait k f).map
          (ReadResult.after [.rawRead (f.file.Read os k).1 (f.file.Read os k).2, .isFresh true])
      else
        (File.readFrom os fuel (.top false) (k + 1) f).map
          (ReadResult.after [.rawRead (f.file.Read os k).1 (f.file.Read os k).2, .isFresh false]) :=
  rfl

theorem readFrom_atWait (os : OS) (fuel : Nat) (k : Nat) (f : File) :
    File.readFrom os (fuel + 1) .atWait k f =
      if (f.fsn.wait (os.parked k)).err ≠ none then
        some ⟨0, (f.fsn.wait (os.parked k)).err, { f with fsn := (f.fsn.wait (os.parked k)).fsn },
          [.wait (f.fsn.wait (os.parked k)).branch (f.fsn.wait (os.parked k)).err]⟩
      else
        (File.readFrom os fuel (.top true) (k + 1)
          { f with fsn := (f.fsn.wait (os.parked k)).fsn }).map
          (ReadResult.after
            [.wait (f.fsn.wait (os.parked k)).branch (f.fsn.wait (os.parked k)).err]) :=
  rfl

/-- More fuel does not change a result. -/
theorem readFrom_mono {os : OS} (fuel : Nat) :
    ∀ (pc : Pc) (k : Nat) (f : File) (r : ReadResult),
      File.readFrom os fuel pc k f = some r → File.readFrom os (fuel + 1) pc k f = some r := by
  induction fuel with
  | zero => intro pc k f r h; simp [File.readFrom] at h
  | succ fuel ih =>
    intro pc k f r h
    cases pc with
    | top fresh =>
      rw [readFrom_top] at h ⊢
      split at h
      · rename_i hc; rw [if_pos hc]; exact h
      · rename_i hc; rw [if_neg hc]
        split at h
        · rename_i hf; rw [if_pos hf]
          obtain ⟨r1, h1, rfl⟩ := Option.map_eq_some'.mp h
          rw [ih _ _ _ _ h1]; rfl
        · rename_i hf; rw [if_neg hf]
          obtain ⟨r1, h1, rfl⟩ := Option.map_eq_some'.mp h
          rw [ih _ _ _ _ h1]; rfl
    | atWait =>
      rw [readFrom_atWait] at h ⊢
      split at h
      · rename_i hc; rw [if_pos hc]; exact h
      · rename_i hc; rw [if_neg hc]
        obtain ⟨r1, h1, rfl⟩ := Option.map_eq_some'.mp h
        rw [ih _ _ _ _ h1]; rfl

theorem readFrom_mono_add {os : OS} (fuel m : Nat) (pc : Pc) (k : Nat) (f : File)
    (r : ReadResult) (h : File.readFrom os fuel pc k f = some r) :
    File.readFrom os (fuel + m) pc k f = some r := by
  induction m with
  | zero => exact h
  | succ m ih => exact readFrom_mono _ _ _ _ _ ih

/-- Every trace of the loop has one of the shapes of `Shape`. -/
theorem readFrom_shape {os : OS} (fuel : Nat) :
    ∀ (pc : Pc) (k : Nat) (f : File) (r : ReadResult),
      File.readFrom os fuel pc k f = some r → Shape pc r.trace r.n r.err := by
  induction fuel with
  | zero => intro pc k f r h; simp [File.readFrom] at h
  | succ fuel ih =>
    intro pc k f r h
    cases pc with
    | top fresh =>
      simp only [File.readFrom] at h
      split at h
      · rename_i hc
        simp only [Option.some.injEq] at h
        subst h
        refine Shape.last _ _ _ ?_
        cases fresh <;> simp_all
      · rename_i hc
        simp only [Bool.or_eq_true, Bool.not_eq_true', bne_iff_ne, ne_eq, not_or, not_not,
          Bool.not_eq_false] at hc
        obtain ⟨⟨hfr, h0⟩, he⟩ := hc
        subst hfr
        split at h
        · obtain ⟨r1, h1, rfl⟩ := Option.map_eq_some'.mp h
          have := ih _ _ _ _ h1
          simpa [ReadResult.after, h0, he] using Shape.fresh this
        · obtain ⟨r1, h1, rfl⟩ := Option.map_eq_some'.mp h
          have := ih _ _ _ _ h1
          simpa [ReadResult.after, h0, he] using Shape.stale this
    | atWait =>
      simp only [File.readFrom] at h
      split at h
      · rename_i hw
        simp only [Option.some.injEq] at h
        subst h
        exact Shape.failed _ _ hw
      · rename_i hw
        simp only [ne_eq, not_not] at hw
        obtain ⟨r1, h1, rfl⟩ := Option.map_eq_some'.mp h
        have := ih _ _ _ _ h1
        simpa [ReadResult.after, hw] using Shape.woken (f.fsn.wait (os.parked k)).branch this

theorem shape_top_false {t : List Event} {n : Nat} {err : Error}
    (h : Shape (.top false) t n err) : t = [.rawRead n err] := by
  cases h; rfl

/-- A check that says not fresh is followed by one raw read, whose result is returned, and by
nothing else; no other check of the call says not fresh. -/
theorem shape_stale_tail {pc : Pc} {t : List Event} {n : Nat} {err : Error}
    (h : Shape pc t n err) (hpc : pc ≠ .top false) (hm : Event.isFresh false ∈ t) :
    ∃ pre, t = pre ++ [.isFresh false, .rawRead n err] ∧ Event.isFresh false ∉ pre := by
  induction h with
  | last fresh n err h => simp at hm
  | fresh h ih =>
    simp only [List.mem_cons, reduceCtorEq, Event.isFresh.injEq, Bool.false_eq_true,
      false_or] at hm
    obtain ⟨pre, ht, hp⟩ := ih (by simp) hm
    exact ⟨.rawRead 0 (some Err.EOF) :: .isFresh true :: pre, by simp [ht], by simp [hp]⟩
  | stale h ih =>
    have := shape_top_false h
    subst this
    exact ⟨[.rawRead 0 (some Err.EOF)], by simp, by simp⟩
  | failed b err h => simp at hm
  | woken b h ih =>
    simp only [List.mem_cons, reduceCtorEq, false_or] at hm
    obtain ⟨pre, ht, hp⟩ := ih (by simp) hm
    exact ⟨.wait b none :: pre, by simp [ht], by simp [hp]⟩

/-- As many freshness checks as ends of file seen before a check said not fresh. -/
theorem shape_checks {pc : Pc} {t : List Event} {n : Nat} {err : Error}
    (h : Shape pc t n err) (hpc : pc ≠ .top false) :
    freshnessChecks t = eofReadsWhileFresh t := by
  induction h with
  | last fresh n err h =>
    have hne : ¬ (n = 0 ∧ err = some Err.EOF) := by
      rintro ⟨h0, he⟩
      rcases h with h | h | h
      · exact hpc (by rw [h])
      · exact h h0
      · exact h he
    simp [freshnessChecks, eofReadsWhileFresh, eofReads, List.countP_cons, hne]
  | fresh h ih =>
    have := ih (by simp)
    simp only [freshnessChecks, eofReadsWhileFresh, eofReads] at this ⊢
    simp [List.countP_cons, List.takeWhile_cons, this]
  | stale h ih =>
    have := shape_top_false h
    subst this
    simp [freshnessChecks, eofReadsWhileFresh, eofReads, List.countP_cons, List.takeWhile_cons]
  | failed b err h =>
    simp [freshnessChecks, eofReadsWhileFresh, eofReads, List.countP_cons, List.takeWhile_cons]
  | woken b h ih =>
    have := ih (by simp)
    simp only [freshnessChecks, eofReadsWhileFresh, eofReads] at this ⊢
    simp [List.countP_cons, List.takeWhile_cons, this]

/-- A result `(0, io.EOF)` is the raw read made after a check said not fresh, or the error of
a `wait`. -/
theorem shape_eof {pc : Pc} {t : List Event} {n : Nat} {err : Error}
    (h : Shape pc t n err) (hpc : pc ≠ .top false) (h0 : n = 0) (he : err = some Err.EOF) :
    (∃ pre, t = pre ++ [.isFresh false, .rawRead 0 (some Err.EOF)]) ∨
      (∃ pre b, t = pre ++ [.wait b (some Err.EOF)]) := by
  induction h with
  | last fresh n err h =>
    rcases h with h | h | h
    · exact absurd (by rw [h]) hpc
    · exact absurd h0 h
    · exact absurd he h
  | fresh h ih =>
    rcases ih (by simp) h0 he with ⟨pre, ht⟩ | ⟨pre, b, ht⟩
    · exact Or.inl ⟨.rawRead 0 (some Err.EOF) :: .isFresh true :: pre, by simp [ht]⟩
    · exact Or.inr ⟨.rawRead 0 (some Err.EOF) :: .isFresh true :: pre, b, by simp [ht]⟩
  | stale h ih =>
    have := shape_top_false h
    subst this; subst h0; subst he
    exact Or.inl ⟨[.rawRead 0 (some Err.EOF)], by simp⟩
  | failed b err h =>
    subst he
    exact Or.inr ⟨[], b, by simp⟩
  | woken b h ih =>
    rcases ih (by simp) h0 he with ⟨pre, ht⟩ | ⟨pre, b1, ht⟩
    · exact Or.inl ⟨.wait b none :: pre, by simp [ht]⟩
    · exact Or.inr ⟨.wait b none :: pre, b1, by simp [ht]⟩

/-! ## C2: a result of zero bytes and no error -/

/-- C2 (as stated, refuted): `Read` returns `(0, nil)` when the raw read does, as the raw read
of an `os.File` does for a buffer of length 0. Here `log` has just been opened. -/
theorem read_returns_zero_nil :
    Open "log" none (.ok ⟨0, 1⟩) = .ok openedLog ∧
      ∃ r, openedLog.Read emptyBufferOS 1 = some r ∧ r.n = 0 ∧ r.err = none :=
  ⟨rfl, _, rfl, rfl, rfl⟩

/-- C2 (amended): whenever `Read` returns `(0, nil)`, the handle is open and the raw read it
ended with returned `(0, nil)` itself; so if every raw read gives `n > 0` or a non-nil error,
`Read` returns `n > 0` or a non-nil error. -/
theorem read_zero_nil_only_from_raw (os : OS) (fuel : Nat) (f : File) (r : ReadResult)
    (h : f.Read os fuel = some r) :
    (r.n = 0 → r.err = none →
      f.file.closed = false ∧ ∃ pre j, r.trace = pre ++ [.rawRead 0 none] ∧
        os.read j = (0, none)) ∧
    ((∀ j, (os.read j).1 ≠ 0 ∨ (os.read j).2 ≠ none) → r.n ≠ 0 ∨ r.err ≠ none) := by
  have key : r.n = 0 → r.err = none →
      f.file.closed = false ∧ ∃ pre j, r.trace = pre ++ [.rawRead 0 none] ∧
        os.read j = (0, none) := by
    intro h0 he
    rcases readFrom_exit fuel _ _ _ _ h with ⟨pre, j, ht, hr⟩ | ⟨pre, b, ht, hn, hne⟩
    · rw [h0, he] at ht hr
      unfold OsFile.Read at hr
      split at hr
      · simp at hr
      · rename_i hc
        exact ⟨by simpa using hc, pre, j, ht, hr⟩
    · exact absurd he hne
  refine ⟨key, ?_⟩
  intro hall
  by_contra hcon
  simp only [ne_eq, not_or, not_not] at hcon
  obtain ⟨-, pre, j, -, hj⟩ := key hcon.1 hcon.2
  rcases hall j with h1 | h1
  · exact h1 (by rw [hj])
  · exact h1 (by rw [hj])

/-- C2 (amended), at a read of 5 bytes. -/
theorem read_zero_nil_only_from_raw_witness :
    openedLog.Read fiveBytesOS 1 =
        some ⟨5, none, { openedLog with pos := 5 }, [.rawRead 5 none]⟩ ∧
      ((5 : Nat) ≠ 0 ∨ (none : Error) ≠ none) :=
  ⟨rfl, (read_zero_nil_only_from_raw fiveBytesOS 1 openedLog
    ⟨5, none, { openedLog with pos := 5 }, [.rawRead 5 none]⟩ rfl).2
      (fun _ => Or.inl (show (5 : Nat) ≠ 0 by decide))⟩

/-! ## C3: what follows a check that says not fresh -/

/-- C3 (as stated, refuted): after an end of file and a check that says not fresh, `Read`
returns what one more raw read gives, here 3 bytes and no error, not `(0, io.EOF)`. -/
theorem read_not_fresh_returns_data :
    logAt10.file.Read lateWriteOS 0 = (0, some Err.EOF) ∧
      logAt10.isFresh lateWriteOS.sameFile (lateWriteOS.stat 0) = false ∧
      ∃ r, logAt10.Read lateWriteOS 2 = some r ∧ r.n = 3 ∧ r.err = none ∧
        r.trace = [.rawRead 0 (some Err.EOF), .isFresh false, .rawRead 3 none] :=
  ⟨rfl, rfl, _, rfl, rfl, rfl, rfl⟩

/-- C3 (amended): when a raw read gives 0 bytes with `io.EOF` and the check that follows says
not fresh, `Read` does not call `wait`: it makes one more raw read and returns the result of
that read as it is, adding its `n` to `pos`. In every `Read` call a check that says not fresh
is followed by that one raw read only. -/
theorem read_not_fresh_passes_next_raw (os : OS) (f : File) :
    (∀ fuel k, f.file.Read os k = (0, some Err.EOF) →
      f.isFresh os.sameFile (os.stat k) = false →
      File.readFrom os (fuel + 2) (.top true) k f =
        some ⟨(f.file.Read os (k + 1)).1, (f.file.Read os (k + 1)).2,
          { f with pos := wrap64 (f.pos + (f.file.Read os (k + 1)).1) },
          [.rawRead 0 (some Err.EOF), .isFresh false,
            .rawRead (f.file.Read os (k + 1)).1 (f.file.Read os (k + 1)).2]⟩) ∧
    (∀ fuel r, f.Read os fuel = some r → Event.isFresh false ∈ r.trace →
      ∃ pre, r.trace = pre ++ [.isFresh false, .rawRead r.n r.err] ∧
        Event.isFresh false ∉ pre) := by
  refine ⟨?_, ?_⟩
  · intro fuel k hraw hstale
    rw [readFrom_top, hraw, hstale]
    simp only [Bool.not_true, bne_self_eq_false, Bool.or_self, Bool.false_eq_true, if_false]
    rw [readFrom_top]
    simp [ReadResult.after]
  · intro fuel r h hm
    exact shape_stale_tail (readFrom_shape fuel _ _ _ _ h) (by simp) hm

/-- C3 (amended), at the rotation with a late write. -/
theorem read_not_fresh_passes_next_raw_witness :
    File.readFrom lateWriteOS 2 (.top true) 0 logAt10 =
        some ⟨3, none, { logAt10 with pos := 13 },
          [.rawRead 0 (some Err.EOF), .isFresh false, .rawRead 3 none]⟩ ∧
      ∃ pre, [Event.rawRead 0 (some Err.EOF), .isFresh false, .rawRead 3 none] =
        pre ++ [.isFresh false, .rawRead 3 none] ∧ Event.isFresh false ∉ pre :=
  ⟨(read_not_fresh_passes_next_raw lateWriteOS logAt10).1 0 0 rfl rfl,
    (read_not_fresh_passes_next_raw lateWriteOS logAt10).2 2
      ⟨3, none, { logAt10 with pos := 13 },
        [.rawRead 0 (some Err.EOF), .isFresh false, .rawRead 3 none]⟩ rfl (by decide)⟩

/-! ## C4: where a result `(0, io.EOF)` comes from -/

/-- C4 (as stated, refuted): with a watch whose error channel delivered `io.EOF`, `Read`
returns `(0, io.EOF)` from the error of `wait`, although the one freshness check of the call
said fresh. -/
theorem read_eof_from_wait :
    (newFsnWrap.add "log" none none).2.eat [.error (some Err.EOF)] = .running eofPending ∧
      logEofPending.isFresh idleOS.sameFile (idleOS.stat 0) = true ∧
      ∃ r, logEofPending.Read idleOS 2 = some r ∧ r.n = 0 ∧ r.err = some Err.EOF ∧
        r.trace = [.rawRead 0 (some Err.EOF), .isFresh true, .wait .wakeCh (some Err.EOF)] :=
  ⟨rfl, rfl, _, rfl, rfl, rfl, rfl⟩

/-- C4 (amended): a `Read` call that returns `(0, io.EOF)` either evaluated `isFresh` with the
result false just before its last raw read, which gave `(0, io.EOF)`, or passed on an `io.EOF`
that `wait` returned as its error. So while every freshness check of the call says fresh and
no `wait` returns `io.EOF`, `Read` does not return `(0, io.EOF)`. -/
theorem read_eof_provenance (os : OS) (fuel : Nat) (f : File) (r : ReadResult)
    (h : f.Read os fuel = some r) :
    (r.n = 0 → r.err = some Err.EOF →
      (∃ pre, r.trace = pre ++ [.isFresh false, .rawRead 0 (some Err.EOF)]) ∨
        (∃ pre b, r.trace = pre ++ [.wait b (some Err.EOF)])) ∧
    (Event.isFresh false ∉ r.trace → (∀ b, Event.wait b (some Err.EOF) ∉ r.trace) →
      ¬ (r.n = 0 ∧ r.err = some Err.EOF)) := by
  have key := shape_eof (readFrom_shape fuel _ _ _ _ h) (by simp)
  refine ⟨key, ?_⟩
  rintro hfresh hwait ⟨h0, he⟩
  rcases key h0 he with ⟨pre, ht⟩ | ⟨pre, b, ht⟩
  · exact hfresh (by simp [ht])
  · exact hwait b (by simp [ht])

/-- C4 (amended), at a rotation seen at the second end of file. -/
theorem read_eof_provenance_witness :
    logAt10.Read secondCheckOS 4 =
        some ⟨0, some Err.EOF, logAt10,
          [.rawRead 0 (some Err.EOF), .isFresh true, .wait (.timer 1) none,
            .rawRead 0 (some Err.EOF), .isFresh false, .rawRead 0 (some Err.EOF)]⟩ ∧
      ((∃ pre, [Event.rawRead 0 (some Err.EOF), .isFresh true, .wait (.timer 1) none,
            .rawRead 0 (some Err.EOF), .isFresh false, .rawRead 0 (some Err.EOF)] =
          pre ++ [.isFresh false, .rawRead 0 (some Err.EOF)]) ∨
        (∃ pre b, [Event.rawRead 0 (some Err.EOF), .isFresh true, .wait (.timer 1) none,
            .rawRead 0 (some Err.EOF), .isFresh false, .rawRead 0 (some Err.EOF)] =
          pre ++ [.wait b (some Err.EOF)])) :=
  ⟨rfl, (read_eof_provenance secondCheckOS 4 logAt10
    ⟨0, some Err.EOF, logAt10,
      [.rawRead 0 (some Err.EOF), .isFresh true, .wait (.timer 1) none,
        .rawRead 0 (some Err.EOF), .isFresh false, .rawRead 0 (some Err.EOF)]⟩ rfl).1 rfl rfl⟩

/-! ## C10: how often freshness is checked in one call -/

/-- C10 (as stated, refuted): in one `Read` call `isFresh` is evaluated twice, after the first
and after the second end of file, and the second evaluation decides the call: it says not
fresh and the call returns instead of waiting. -/
theorem read_checks_twice :
    ∃ r, logAt10.Read secondCheckOS 4 = some r ∧
      r.trace = [.rawRead 0 (some Err.EOF), .isFresh true, .wait (.timer 1) none,
        .rawRead 0 (some Err.EOF), .isFresh false, .rawRead 0 (some Err.EOF)] ∧
      freshnessChecks r.trace = 2 :=
  ⟨_, rfl, rfl, rfl⟩

/-- C10 (amended): within one `Read` call `isFresh` is evaluated after every raw read that
gives 0 bytes with `io.EOF`, until an evaluation says not fresh: the number of evaluations is
the number of such raw reads made before a check said not fresh, and at most one evaluation of
the call says not fresh. -/
theorem read_checks_every_eof (os : OS) (fuel : Nat) (f : File) (r : ReadResult)
    (h : f.Read os fuel = some r) :
    freshnessChecks r.trace = eofReadsWhileFresh r.trace ∧
      r.trace.count (.isFresh false) ≤ 1 := by
  have hs := readFrom_shape fuel _ _ _ _ h
  refine ⟨shape_checks hs (by simp), ?_⟩
  by_cases hm : Event.isFresh false ∈ r.trace
  · obtain ⟨pre, ht, hp⟩ := shape_stale_tail hs (by simp) hm
    rw [ht, List.count_append, List.count_eq_zero_of_not_mem hp]
    simp [List.count_cons]
  · rw [List.count_eq_zero_of_not_mem hm]
    exact Nat.zero_le _

/-- C10 (amended), at a rotation seen at the second end of file: two checks, two ends of file
before the check that said not fresh. -/
theorem read_checks_every_eof_witness :
    logAt10.Read secondCheckOS 4 =
        some ⟨0, some Err.EOF, logAt10,
          [.rawRead 0 (some Err.EOF), .isFresh true, .wait (.timer 1) none,
            .rawRead 0 (some Err.EOF), .isFresh false, .rawRead 0 (some Err.EOF)]⟩ ∧
      freshnessChecks [.rawRead 0 (some Err.EOF), .isFresh true, .wait (.timer 1) none,
          .rawRead 0 (some Err.EOF), .isFresh false, .rawRead 0 (some Err.EOF)] = 2 ∧
      eofReadsWhileFresh [.rawRead 0 (some Err.EOF), .isFresh true, .wait (.timer 1) none,
          .rawRead 0 (some Err.EOF), .isFresh false, .rawRead 0 (some Err.EOF)] = 2 :=
  ⟨rfl, rfl, ((read_checks_every_eof secondCheckOS 4 logAt10
    ⟨0, some Err.EOF, logAt10,
      [.rawRead 0 (some Err.EOF), .isFresh true, .wait (.timer 1) none,
        .rawRead 0 (some Err.EOF), .isFresh false, .rawRead 0 (some Err.EOF)]⟩ rfl).1).symm.trans
    rfl⟩

/-! ## The coordinator -/

/-- On an open wake channel `wake` does not panic, leaves one value in the slot, and that value
is the error the slot held, if it held a non-nil one, and the new value otherwise. -/
theorem wake_open (f : fsnWrap) (err : Error) (hopen : f.wakeCh.closed = false) :
    f.wake err =
      some { f with wakeCh := ⟨some (firstError (f.wakeCh.buf.toList ++ [err])), false⟩ } := by
  obtain ⟨⟨buf, closed⟩, watch, done⟩ := f
  simp only at hopen
  subst hopen
  rcases buf with _ | _ | e0 <;> rcases err with _ | e <;>
    simp [fsnWrap.wake, Chan.recv, Chan.trySend, firstError]

theorem firstError_cons_append (v : Error) (vs ws : List Error) :
    firstError ([firstError (v :: vs)] ++ ws) = firstError (v :: vs ++ ws) := by
  simp only [firstError, List.singleton_append, List.cons_append, List.findSome?_cons,
    List.findSome?_append, id]
  cases v with
  | some e => simp
  | none =>
    simp only
    cases h : List.findSome? id vs <;> simp

/-- Any number of `wake` calls on an open wake channel leave it open, the slot holding the
first non-nil error among the value it held and the new values, in this order. -/
theorem wakes_open (errs : List Error) :
    ∀ (f : fsnWrap), f.wakeCh.closed = false → errs ≠ [] →
      f.wakes errs =
        some { f with wakeCh := ⟨some (firstError (f.wakeCh.buf.toList ++ errs)), false⟩ } := by
  induction errs with
  | nil => intro f _ h; exact absurd rfl h
  | cons err errs ih =>
    intro f hopen _
    rw [fsnWrap.wakes, wake_open f err hopen]
    by_cases he : errs = []
    · subst he; simp [fsnWrap.wakes]
    · simp only
      rw [ih _ rfl he]
      simp only [Option.toList, Option.some.injEq]
      congr 3
      cases hb : f.wakeCh.buf with
      | none => simpa using firstError_cons_append err [] errs
      | some v => simpa using firstError_cons_append v [err] errs

theorem wake_closed {f f1 : fsnWrap} {err : Error} (h : f.wake err = some f1) :
    f1.wakeCh.closed = f.wakeCh.closed := by
  obtain ⟨⟨buf, closed⟩, watch, done⟩ := f
  cases closed
  · rw [wake_open _ _ rfl] at h
    simp only [Option.some.injEq] at h
    subst h; rfl
  · rcases buf with _ | _ | e0 <;> rcases err with _ | e <;>
      simp [fsnWrap.wake, Chan.recv, Chan.trySend] at h

theorem wait_closed (f : fsnWrap) (parked : Wakeup) :
    (f.wait parked).fsn.wakeCh.closed = f.wakeCh.closed := by
  obtain ⟨⟨buf, closed⟩, watch, done⟩ := f
  rcases buf with _ | v <;> cases closed <;> cases parked <;> simp [fsnWrap.wait, Chan.recv]

/-- On a closed wake channel `wait` returns through the receive on `wakeCh`, with the value
left in the slot, if any, and with `nil` otherwise. -/
theorem wait_of_closed (f : fsnWrap) (parked : Wakeup) (h : f.wakeCh.closed = true) :
    (f.wait parked).branch = .wakeCh ∧ (f.wait parked).err = f.wakeCh.buf.getD none ∧
      (f.wait parked).fsn.wakeCh.buf = none := by
  obtain ⟨⟨buf, closed⟩, watch, done⟩ := f
  simp only at h
  subst h
  rcases buf with _ | v <;> simp [fsnWrap.wait, Chan.recv]

theorem add_closed (f : fsnWrap) (name : String) (newErr addErr : Error) :
    (f.add name newErr addErr).2.wakeCh = f.wakeCh := by
  obtain ⟨ch, watch, done⟩ := f
  cases watch <;> simp only [fsnWrap.add] <;> split_ifs <;> rfl

theorem close_closed {f f1 : fsnWrap} {watchErr e : Error}
    (h : f.close watchErr = some (e, f1)) (hc : f.wakeCh.closed = true) :
    f1.wakeCh.closed = true := by
  unfold fsnWrap.close at h
  split at h
  · split at h
    · simp only [Option.some.injEq, Prod.mk.injEq] at h
      rw [← h.2]; exact hc
    · simp at h
  · simp [Chan.close, hc] at h

theorem eat_closed (items : List Drained) :
    ∀ (f f1 : fsnWrap), (f.eat items = .running f1 ∨ f.eat items = .exited f1) →
      f.wakeCh.closed = true → f1.wakeCh.closed = true := by
  induction items with
  | nil =>
    intro f f1 h hc
    simp only [fsnWrap.eat, EatState.running.injEq, reduceCtorEq, or_false] at h
    rw [← h]; exact hc
  | cons d ds ih =>
    intro f f1 h hc
    rw [fsnWrap.eat] at h
    split at h
    · simp only [EatState.running.injEq, reduceCtorEq, or_false] at h
      rw [← h]; exact hc
    · split at h
      · simp at h
      · rename_i f2 hw
        have h2 := wake_closed hw
        rw [hc] at h2
        split at h
        · exact ih _ _ h h2
        · simp [Chan.close, h2] at h

theorem step_closed {f f1 : fsnWrap} {op : Op} (h : f.step op = some f1)
    (hc : f.wakeCh.closed = true) : f1.wakeCh.closed = true := by
  cases op with
  | wait parked =>
    simp only [fsnWrap.step, Option.some.injEq] at h
    rw [← h, wait_closed]; exact hc
  | wake err =>
    rw [wake_closed (show f.wake err = some f1 from h)]; exact hc
  | add name newErr addErr =>
    simp only [fsnWrap.step, Option.some.injEq] at h
    rw [← h, add_closed]; exact hc
  | close watchErr =>
    simp only [fsnWrap.step, Option.map_eq_some', Prod.exists, exists_eq_right] at h
    obtain ⟨e, he⟩ := h
    exact close_closed he hc
  | eat items =>
    simp only [fsnWrap.step] at h
    split at h
    · rename_i f2 he
      simp only [Option.some.injEq] at h
      subst h
      exact eat_closed items _ _ (Or.inl he) hc
    · rename_i f2 he
      simp only [Option.some.injEq] at h
      subst h
      exact eat_closed items _ _ (Or.inr he) hc
    · simp at h

theorem waits_cons_wait (f : fsnWrap) (parked : Wakeup) (ops : List Op) :
    f.waits (.wait parked :: ops) = f.wait parked :: (f.wait parked).fsn.waits ops := rfl

theorem waits_cons_other (f : fsnWrap) (op : Op) (ops : List Op)
    (h : ∀ parked, op ≠ .wait parked) :
    f.waits (op :: ops) = match f.step op with
      | some f1 => f1.waits ops
      | none => [] := by
  cases op with
  | wait parked => exact absurd rfl (h parked)
  | wake err => simp only [fsnWrap.waits]; split <;> simp
  | add name newErr addErr => simp only [fsnWrap.waits]; split <;> simp
  | close watchErr => simp only [fsnWrap.waits]; split <;> simp
  | eat items => simp only [fsnWrap.waits]; split <;> simp

/-- Once the wake channel is closed, every `wait` of every later sequence of operations
returns through the receive on `wakeCh`. -/
theorem waits_closed (ops : List Op) :
    ∀ (f : fsnWrap), f.wakeCh.closed = true → ∀ w ∈ f.waits ops, w.branch = .wakeCh := by
  induction ops with
  | nil => intro f _ w hw; simp [fsnWrap.waits] at hw
  | cons op ops ih =>
    intro f hc w hw
    by_cases hop : ∃ parked, op = .wait parked
    · obtain ⟨parked, rfl⟩ := hop
      rw [waits_cons_wait] at hw
      rcases List.mem_cons.mp hw with h1 | h1
      · rw [h1]; exact (wait_of_closed f parked hc).1
      · exact ih _ (by rw [wait_closed]; exact hc) w h1
    · rw [waits_cons_other f op ops (fun parked h => hop ⟨parked, h⟩)] at hw
      split at hw
      · rename_i f1 hs
        exact ih f1 (step_closed hs hc) w hw
      · simp at hw

/-- Once the wake channel is closed, `n` calls of `wait` in a row give `n` results, all
through the receive on `wakeCh`. -/
theorem waits_only_closed (parkeds : List Wakeup) :
    ∀ (f : fsnWrap), f.wakeCh.closed = true →
      (f.waits (parkeds.map Op.wait)).map (fun w => w.branch) =
        List.replicate parkeds.length Branch.wakeCh := by
  induction parkeds with
  | nil => intro f _; rfl
  | cons p ps ih =>
    intro f hc
    simp only [List.map_cons, fsnWrap.waits, fsnWrap.step, List.singleton_append,
      List.length_cons, List.replicate_succ, List.cons.injEq]
    refine ⟨(wait_of_closed f p hc).1, ih _ ?_⟩
    rw [wait_closed]; exact hc

/-- With `done` closed and the wake channel open, the merge loop exits once it has drained
`done`, and leaves the wake channel closed. -/
theorem eat_drains_done (items : List Drained) :
    ∀ (f : fsnWrap), f.wakeCh.closed = false → f.done = .closed →
      ∃ f1, f.eat (items ++ [.done]) = .exited f1 ∧ f1.wakeCh.closed = true ∧
        f1.watch = f.watch := by
  induction items with
  | nil =>
    intro f hopen hdone
    simp [fsnWrap.eat, hdone, wake_open f _ hopen, Drained.result, Chan.close]
  | cons d ds ih =>
    intro f hopen hdone
    rw [List.cons_append, fsnWrap.eat, if_neg (by simp [hdone]), wake_open f _ hopen]
    simp only
    split
    · exact ih { f with wakeCh := ⟨some (firstError (f.wakeCh.buf.toList ++ [d.result.1])),
        false⟩ } rfl hdone
    · simp [Chan.close]

/-! ## C9: the merge in `wake` -/

/-- C9: on an open coordinator, `wake(err)` leaves exactly one value in the slot, whatever the
slot held (nothing, `nil`, or a non-nil error `e0`) and whatever `err` is: `e0` if the slot
held a non-nil error, `err` otherwise. So one or more `wake` calls before a `wait` leave one
pending value, the first non-nil error among the held value and the new ones, else `nil`; the
`wait` that consumes it returns it and leaves the slot empty, and the next `wait` parks. -/
theorem wake_first_error_wins (f : fsnWrap) (err : Error) (errs : List Error)
    (parked : Wakeup) (hopen : f.wakeCh.closed = false) :
    (∃ f1, f.wake err = some f1 ∧ f1.wakeCh.closed = false ∧
      f1.wakeCh.buf = some (match f.wakeCh.buf with
        | some (some e0) => some e0
        | _ => err)) ∧
    (∃ f2, f.wakes (err :: errs) = some f2 ∧
      f2.wakeCh.buf = some (firstError (f.wakeCh.buf.toList ++ err :: errs)) ∧
      (f2.wait parked).err = firstError (f.wakeCh.buf.toList ++ err :: errs) ∧
      (f2.wait parked).branch = .wakeCh ∧
      (f2.wait parked).fsn.wakeCh.buf = none ∧
      (f2.wait parked).fsn.wakeCh.recv = none ∧
      ((f2.wait parked).fsn.wait .timeout).branch =
        .timer (if f.watch = none then 1 else 60)) := by
  refine ⟨⟨_, wake_open f err hopen, rfl, ?_⟩,
    ⟨_, wakes_open (err :: errs) f hopen (by simp), rfl, ?_⟩⟩
  · obtain ⟨⟨buf, closed⟩, watch, done⟩ := f
    rcases buf with _ | _ | e0 <;> rcases err with _ | e <;> simp [firstError]
  · simp [fsnWrap.wait, Chan.recv]

/-- C9, with a watch: four notifications, the second and the fourth with an error, leave the
second one's error pending. -/
theorem wake_first_error_wins_witness :
    watching.wakeCh.closed = false ∧
      ∃ f2, watching.wakes [none, some (.other 1), none, some (.other 2)] = some f2 ∧
        f2.wakeCh.buf = some (some (.other 1)) ∧
        (f2.wait .timeout).err = some (.other 1) ∧
        ((f2.wait .timeout).fsn.wait .timeout).branch = .timer 60 := by
  obtain ⟨f2, h1, h2, h3, -, -, -, h4⟩ :=
    (wake_first_error_wins watching none [some (.other 1), none, some (.other 2)] .timeout rfl).2
  exact ⟨rfl, f2, h1, h2, h3, h4⟩

/-! ## C7: shutdown is terminal -/

/-- C7: once `close()` has run on a coordinator (in polling-only mode at once; with a watch,
once the merge loop has drained `done` and exited), the wake channel is closed, and every
`wait` of every later sequence of operations returns through the receive on `wakeCh`, not
through the timer; `n` calls of `wait` in a row give `n` such results. -/
theorem shutdown_is_terminal (f : fsnWrap) (watchErr : Error)
    (hopen : f.wakeCh.closed = false) (hdone : f.watch ≠ none → f.done = .opened) :
    ∃ e f1, f.close watchErr = some (e, f1) ∧
      (f.watch = none →
        f1.wakeCh.closed = true ∧
        (∀ ops, ∀ w ∈ f1.waits ops, w.branch = .wakeCh) ∧
        (∀ parkeds : List Wakeup, (f1.waits (parkeds.map Op.wait)).map (fun w => w.branch) =
          List.replicate parkeds.length Branch.wakeCh)) ∧
      (f.watch ≠ none → ∀ items, ∃ f2, f1.eat (items ++ [.done]) = .exited f2 ∧
        f2.wakeCh.closed = true ∧
        (∀ ops, ∀ w ∈ f2.waits ops, w.branch = .wakeCh) ∧
        (∀ parkeds : List Wakeup, (f2.waits (parkeds.map Op.wait)).map (fun w => w.branch) =
          List.replicate parkeds.length Branch.wakeCh)) := by
  obtain ⟨⟨buf, closed⟩, watch, done⟩ := f
  simp only at hopen hdone
  subst hopen
  cases watch with
  | none =>
    refine ⟨none, ⟨⟨buf, true⟩, none, done⟩, rfl, fun _ => ⟨rfl, ?_, ?_⟩, fun h => absurd rfl h⟩
    · exact fun ops => waits_closed ops _ rfl
    · exact fun parkeds => waits_only_closed parkeds _ rfl
  | some w =>
    have hd := hdone (by simp)
    subst hd
    refine ⟨watchErr, ⟨⟨buf, false⟩, some { w with closed := true }, .closed⟩, rfl,
      fun h => by simp at h, fun _ items => ?_⟩
    obtain ⟨f2, h1, h2, -⟩ := eat_drains_done items
      ⟨⟨buf, false⟩, some { w with closed := true }, .closed⟩ rfl rfl
    exact ⟨f2, h1, h2, fun ops => waits_closed ops _ h2,
      fun parkeds => waits_only_closed parkeds _ h2⟩

/-- C7, in polling-only mode: after `close()` three `wait` calls, with a `Watch` attempt in
between, all return through the receive on `wakeCh`. -/
theorem shutdown_is_terminal_witness :
    newFsnWrap.wakeCh.closed = false ∧
      ∃ e f1, newFsnWrap.close none = some (e, f1) ∧
        ∀ w ∈ f1.waits [.wait .timeout, .wait .timeout, .add "log" none none, .wait .timeout],
          w.branch = .wakeCh := by
  obtain ⟨e, f1, h1, h2, -⟩ := shutdown_is_terminal newFsnWrap none rfl (fun h => absurd rfl h)
  exact ⟨rfl, e, f1, h1, (h2 rfl).2.1 _⟩

/-! ## C8: what `wait` returns -/

/-- C8 (as stated, refuted): a `wait` that returns because of shutdown returns `nil`, without a
watch (`close` closes the wake channel, whose zero value is `nil`) and with one (the merge
loop passes `nil` on before it closes the wake channel). -/
theorem wait_after_shutdown_is_nil :
    (newFsnWrap.close none = some (none, pollingClosed) ∧
      (pollingClosed.wait .timeout).err = none ∧
      (pollingClosed.wait .timeout).branch = .wakeCh) ∧
    ((newFsnWrap.add "log" none none).2 = watching ∧
      ∃ f1, watching.close none = some (none, f1) ∧ f1.eat [.done] = .exited watchingClosed ∧
        (watchingClosed.wait .timeout).err = none ∧
        (watchingClosed.wait .timeout).branch = .wakeCh ∧
        ((watchingClosed.wait .timeout).fsn.wait .timeout).err = none) :=
  ⟨⟨rfl, rfl, rfl⟩, rfl, _, rfl, rfl, rfl, rfl, rfl⟩

/-- C8 (amended): `wait` returns a non-nil error only when that error went through the wake
channel, that is, was passed to `wake` (it sits in the slot or is handed to the parked
receiver). A `wait` that returns because of shutdown returns what is left in the slot and `nil`
when the slot is empty, so the shutdown of an idle coordinator gives `nil`, without a watch
and with one. A `wait` that consumes a watch failure returns the first pending error. -/
theorem wait_error_is_wake_value (f : fsnWrap) (parked : Wakeup) (watchErr : Error) :
    ((f.wait parked).err ≠ none →
      f.wakeCh.buf = some (f.wait parked).err ∨
        (f.wakeCh.buf = none ∧ f.wakeCh.closed = false ∧
          parked = .notified (f.wait parked).err)) ∧
    (f.wakeCh.closed = true →
      (f.wait parked).branch = .wakeCh ∧ (f.wait parked).err = f.wakeCh.buf.getD none) ∧
    (f.wakeCh = Chan.make → f.watch = none →
      ∃ f1, f.close watchErr = some (none, f1) ∧ (f1.wait parked).err = none ∧
        (f1.wait parked).branch = .wakeCh) ∧
    (f.wakeCh = Chan.make → f.watch ≠ none → f.done = .opened →
      ∃ f1 f2, f.close watchErr = some (watchErr, f1) ∧ f1.eat [.done] = .exited f2 ∧
        (f2.wait parked).err = none ∧ (f2.wait parked).branch = .wakeCh) ∧
    (f.wakeCh.closed = false → ∀ e : Err,
      ∃ f1, f.wake (some e) = some f1 ∧
        (f1.wait parked).err = firstError (f.wakeCh.buf.toList ++ [some e]) ∧
        (f1.wait parked).err ≠ none ∧ (f1.wait parked).branch = .wakeCh) := by
  obtain ⟨⟨buf, closed⟩, watch, done⟩ := f
  refine ⟨?_, ?_, ?_, ?_, ?_⟩
  · rcases buf with _ | v <;> cases closed <;> cases parked <;>
      simp [fsnWrap.wait, Chan.recv]
  · intro hc
    exact ⟨(wait_of_closed _ parked hc).1, (wait_of_closed _ parked hc).2.1⟩
  · intro hch hw
    simp only [Chan.make, Chan.mk.injEq] at hch hw
    obtain ⟨rfl, rfl⟩ := hch
    subst hw
    exact ⟨_, rfl, by simp [fsnWrap.wait, Chan.recv], by simp [fsnWrap.wait, Chan.recv]⟩
  · intro hch hw hd
    simp only [Chan.make, Chan.mk.injEq] at hch hw hd
    obtain ⟨rfl, rfl⟩ := hch
    subst hd
    cases watch with
    | none => exact absurd rfl hw
    | some w =>
      exact ⟨_, ⟨⟨some none, true⟩, some { w with closed := true }, .closed⟩, rfl, rfl, rfl, rfl⟩
  · intro hopen e
    simp only at hopen
    subst hopen
    refine ⟨_, wake_open _ _ rfl, ?_, ?_, ?_⟩
    · simp [fsnWrap.wait, Chan.recv]
    · rcases buf with _ | _ | e0 <;> simp [fsnWrap.wait, Chan.recv, firstError]
    · simp [fsnWrap.wait, Chan.recv]

/-- C8 (amended), with a watch: a watch failure passed to `wake` is what `wait` returns. -/
theorem wait_error_is_wake_value_witness :
    watching.wakeCh.closed = false ∧
      ∃ f1, watching.wake (some (.other 7)) = some f1 ∧
        (f1.wait .timeout).err = some (.other 7) := by
  obtain ⟨f1, h1, h2, -, -⟩ :=
    (wait_error_is_wake_value watching .timeout none).2.2.2.2 rfl (.other 7)
  exact ⟨rfl, f1, h1, h2⟩

/-! ## C5: `Read` on a closed `File` -/

theorem eat_exited_closed (items : List Drained) :
    ∀ (f f1 : fsnWrap), f.eat items = .exited f1 → f1.wakeCh.closed = true := by
  induction items with
  | nil => intro f f1 h; simp [fsnWrap.eat] at h
  | cons d ds ih =>
    intro f f1 h
    rw [fsnWrap.eat] at h
    split at h
    · simp at h
    · split at h
      · simp at h
      · rename_i f2 hw
        split at h
        · exact ih _ _ h
        · split at h
          · rename_i ch hch
            simp only [EatState.exited.injEq] at h
            subst h
            simp only [Chan.close] at hch
            split at hch
            · simp at hch
            · simp only [Option.some.injEq] at hch
              rw [← hch]
          · simp at h

/-- A `Read` parked in `wait` whose handle has been closed returns `0` and a non-nil error as
soon as its `wait` returns, however that `wait` ends. -/
theorem readFrom_atWait_closed (os : OS) (fuel k : Nat) (g : File)
    (hc : g.file.closed = true) (hne : os.closedErr ≠ Err.EOF) :
    ∃ r, File.readFrom os (fuel + 2) .atWait k g = some r ∧ r.n = 0 ∧ r.err ≠ none ∧
      r.trace.head? = some
        (.wait (g.fsn.wait (os.parked k)).branch (g.fsn.wait (os.parked k)).err) := by
  rw [readFrom_atWait]
  split
  · rename_i hw
    exact ⟨_, rfl, rfl, hw, rfl⟩
  · rw [readFrom_top]
    have hraw : ∀ j, OsFile.Read g.file os j = (0, some os.closedErr) := by
      intro j; simp [OsFile.Read, hc]
    simp only [hraw, Bool.not_true, bne_self_eq_false, Bool.false_or, bne_iff_ne, ne_eq,
      Option.some.injEq, hne, not_false_eq_true, decide_True, if_true, Option.map_some']
    exact ⟨_, rfl, rfl, by simp [ReadResult.after], by simp [ReadResult.after]⟩

/-- A raw read on a closed handle ends the loop of `Read` at once. -/
theorem readFrom_top_closed (os : OS) (fuel k : Nat) (fresh : Bool) (g : File)
    (hc : g.file.closed = true) (hne : os.closedErr ≠ Err.EOF) :
    File.readFrom os (fuel + 1) (.top fresh) k g =
      some ⟨0, some os.closedErr, { g with pos := wrap64 (g.pos + (0 : Nat)) },
        [.rawRead 0 (some os.closedErr)]⟩ := by
  rw [readFrom_top]
  simp [OsFile.Read, hc, hne]

/-- C5: if a raw read on a closed handle gives `(0, closedErr)` with `closedErr` other than
`io.EOF`, then on a `File` on which `Close` has run a newly issued `Read` returns
`(0, closedErr)` at once, and a `Read` that was parked in `wait` returns `0` with a non-nil
error however its `wait` ends; that `wait` returns through the receive on `wakeCh`, not
through the timer, in polling-only mode at once and with a watch once the merge loop has
exited. -/
theorem read_after_close (f g : File) (os : OS) (closeErr watchErr e : Error)
    (hclose : f.Close closeErr watchErr = some (e, g)) (hne : os.closedErr ≠ Err.EOF) :
    g.file.closed = true ∧
    (∀ fuel, ∃ r, g.Read os (fuel + 1) = some r ∧ r.n = 0 ∧ r.err = some os.closedErr ∧
      r.trace = [.rawRead 0 (some os.closedErr)]) ∧
    (∀ fuel k (fsn : fsnWrap),
      ∃ r, File.readFrom os (fuel + 2) .atWait k { g with fsn := fsn } = some r ∧
        r.n = 0 ∧ r.err ≠ none) ∧
    (f.fsn.watch = none → ∀ fuel k,
      ∃ r e1, File.readFrom os (fuel + 2) .atWait k g = some r ∧ r.n = 0 ∧ r.err ≠ none ∧
        r.trace.head? = some (.wait .wakeCh e1)) ∧
    (f.fsn.watch ≠ none → ∀ items fsn2, g.fsn.eat items = .exited fsn2 → ∀ fuel k,
      ∃ r e1, File.readFrom os (fuel + 2) .atWait k { g with fsn := fsn2 } = some r ∧
        r.n = 0 ∧ r.err ≠ none ∧ r.trace.head? = some (.wait .wakeCh e1)) := by
  unfold File.Close at hclose
  split at hclose
  · rename_i x fsn1 hfsn
    simp only [Option.some.injEq, Prod.mk.injEq] at hclose
    obtain ⟨-, rfl⟩ := hclose
    refine ⟨rfl, ?_, ?_, ?_, ?_⟩
    · intro fuel
      exact ⟨_, readFrom_top_closed os fuel 0 true _ rfl hne, rfl, rfl, rfl⟩
    · intro fuel k fsn
      obtain ⟨r, h1, h2, h3, -⟩ := readFrom_atWait_closed os fuel k
        { file := ⟨true⟩, info := f.info, name := f.name, pos := f.pos, fsn := fsn } rfl hne
      exact ⟨r, h1, h2, h3⟩
    · intro hw fuel k
      have hcl : fsn1.wakeCh.closed = true := by
        unfold fsnWrap.close at hfsn
        rw [hw] at hfsn
        simp only at hfsn
        split at hfsn
        · rename_i ch hch
          simp only [Option.some.injEq, Prod.mk.injEq] at hfsn
          rw [← hfsn.2]
          unfold Chan.close at hch
          split at hch
          · simp at hch
          · simp only [Option.some.injEq] at hch
            rw [← hch]
        · simp at hfsn
      obtain ⟨r, h1, h2, h3, h4⟩ := readFrom_atWait_closed os fuel k
        { file := ⟨true⟩, info := f.info, name := f.name, pos := f.pos, fsn := fsn1 } rfl hne
      rw [(wait_of_closed fsn1 (os.parked k) hcl).1] at h4
      exact ⟨r, _, h1, h2, h3, h4⟩
    · intro _ items fsn2 hexit fuel k
      have hcl : fsn2.wakeCh.closed = true := eat_exited_closed items _ _ hexit
      obtain ⟨r, h1, h2, h3, h4⟩ := readFrom_atWait_closed os fuel k
        { file := ⟨true⟩, info := f.info, name := f.name, pos := f.pos, fsn := fsn2 } rfl hne
      rw [(wait_of_closed fsn2 (os.parked k) hcl).1] at h4
      exact ⟨r, _, h1, h2, h3, h4⟩
  · simp at hclose

/-- C5, at `log` closed at position 10: a new `Read` returns `0` and the closed-handle error,
and a `Read` parked in `wait` returns the same after its `wait` came back through `wakeCh`. -/
theorem read_after_close_witness :
    logAt10.Close none none = some (none, closedLog) ∧
      idleOS.closedErr ≠ Err.EOF ∧
      (∃ r, closedLog.Read idleOS 1 = some r ∧ r.n = 0 ∧ r.err = some (.other 9)) ∧
      (∃ r e1, File.readFrom idleOS 2 .atWait 0 closedLog = some r ∧ r.n = 0 ∧ r.err ≠ none ∧
        r.trace.head? = some (.wait .wakeCh e1)) := by
  have h := read_after_close logAt10 closedLog idleOS none none none rfl (by decide)
  obtain ⟨r, h1, h2, h3, -⟩ := h.2.1 0
  exact ⟨rfl, by decide, ⟨r, h1, h2, h3⟩, h.2.2.2.1 rfl 0 0⟩

/-! ## C6: the tracked position -/

theorem wrap64_of_isInt64 {x : Int} (h : isInt64 x) : wrap64 x = x := by
  unfold isInt64 at h
  unfold wrap64
  omega

theorem isInt64_wrap64 (x : Int) : isInt64 (wrap64 x) := by
  unfold isInt64 wrap64
  omega

theorem wrap64_add (x y : Int) : wrap64 (wrap64 x + y) = wrap64 (x + y) := by
  unfold wrap64
  omega

/-- The position after the loop of `Read`: the result of a raw read adds its `n`, with the
wrap-around of an `int64`; the error of a `wait` leaves the position as it was. -/
theorem readFrom_pos {os : OS} (fuel : Nat) :
    ∀ (pc : Pc) (k : Nat) (f : File) (r : ReadResult),
      File.readFrom os fuel pc k f = some r →
      (r.file.pos = wrap64 (f.pos + r.n) ∧ ∃ pre, r.trace = pre ++ [.rawRead r.n r.err]) ∨
      (r.file.pos = f.pos ∧ r.n = 0 ∧ ∃ pre b, r.trace = pre ++ [.wait b r.err]) := by
  induction fuel with
  | zero => intro pc k f r h; simp [File.readFrom] at h
  | succ fuel ih =>
    intro pc k f r h
    have after : ∀ (es : List Event) (g : File) (r1 : ReadResult),
        ((r1.file.pos = wrap64 (g.pos + r1.n) ∧ ∃ pre, r1.trace = pre ++ [.rawRead r1.n r1.err]) ∨
          (r1.file.pos = g.pos ∧ r1.n = 0 ∧ ∃ pre b, r1.trace = pre ++ [.wait b r1.err])) →
        (((r1.after es).file.pos = wrap64 (g.pos + (r1.after es).n) ∧
            ∃ pre, (r1.after es).trace = pre ++ [.rawRead (r1.after es).n (r1.after es).err]) ∨
          ((r1.after es).file.pos = g.pos ∧ (r1.after es).n = 0 ∧
            ∃ pre b, (r1.after es).trace = pre ++ [.wait b (r1.after es).err])) := by
      intro es g r1 h1
      rcases h1 with ⟨hp, pre, ht⟩ | ⟨hp, hn, pre, b, ht⟩
      · exact Or.inl ⟨hp, es ++ pre, by simp [ReadResult.after, ht]⟩
      · exact Or.inr ⟨hp, hn, es ++ pre, b, by simp [ReadResult.after, ht]⟩
    cases pc with
    | top fresh =>
      rw [readFrom_top] at h
      split at h
      · simp only [Option.some.injEq] at h
        subst h
        exact Or.inl ⟨rfl, [], rfl⟩
      · split at h
        · obtain ⟨r1, h1, rfl⟩ := Option.map_eq_some'.mp h
          exact after _ _ _ (ih _ _ _ _ h1)
        · obtain ⟨r1, h1, rfl⟩ := Option.map_eq_some'.mp h
          exact after _ _ _ (ih _ _ _ _ h1)
    | atWait =>
      rw [readFrom_atWait] at h
      split at h
      · simp only [Option.some.injEq] at h
        subst h
        exact Or.inr ⟨rfl, rfl, [], _, rfl⟩
      · obtain ⟨r1, h1, rfl⟩ := Option.map_eq_some'.mp h
        have h2 := ih _ _ _ _ h1
        exact after _ f _ h2

/-- The position after a sequence of calls is the accounted sum, in `int64` arithmetic. -/
theorem calls_account (cs : List Call) :
    ∀ (f g : File) (log : List Returned) (acc : Int × Int),
      f.calls cs = some (g, log) → isInt64 f.pos → f.pos = wrap64 (acc.1 + acc.2) →
      (∀ ret ∈ seekResults log, isInt64 ret) →
      g.pos = wrap64 ((log.foldl account acc).1 + (log.foldl account acc).2) := by
  induction cs with
  | nil =>
    intro f g log acc h _ hp _
    simp only [File.calls, Option.some.injEq, Prod.mk.injEq] at h
    obtain ⟨rfl, rfl⟩ := h
    exact hp
  | cons c cs ih =>
    intro f g log acc h hin hp hret
    obtain ⟨base, sum⟩ := acc
    cases c with
    | read os fuel =>
      rw [File.calls] at h
      split at h
      · simp at h
      · rename_i r hr
        obtain ⟨p, h1, h2⟩ := Option.map_eq_some'.mp h
        obtain ⟨g1, log1⟩ := p
        simp only [Prod.mk.injEq] at h2
        obtain ⟨rfl, rfl⟩ := h2
        have hpos : r.file.pos = wrap64 (f.pos + r.n) := by
          rcases readFrom_pos fuel _ _ _ _ hr with ⟨h3, -⟩ | ⟨h3, h4, -⟩
          · exact h3
          · rw [h3, h4]; simp [wrap64_of_isInt64 hin]
        refine ih r.file g1 log1 (base, sum + r.n) h1 (hpos ▸ isInt64_wrap64 _) ?_ ?_
        · rw [hpos, hp, wrap64_add]
          simp only
          congr 1
          ring
        · intro ret hm
          exact hret ret (by simpa [seekResults] using hm)
    | seek offset whence ret err =>
      rw [File.calls] at h
      obtain ⟨p, h1, h2⟩ := Option.map_eq_some'.mp h
      obtain ⟨g1, log1⟩ := p
      simp only [Prod.mk.injEq] at h2
      obtain ⟨rfl, rfl⟩ := h2
      cases err with
      | none =>
        have hr : isInt64 ret := hret ret (by simp [File.Seek, seekResults])
        refine ih _ g1 log1 (ret, 0) h1 hr ?_ ?_
        · simp [File.Seek, wrap64_of_isInt64 hr]
        · intro ret1 hm
          exact hret ret1 (by simp [File.Seek, seekResults, hm])
      | some e =>
        refine ih _ g1 log1 (base, sum) h1 hin hp ?_
        intro ret1 hm
        exact hret ret1 (by simpa [File.Seek, seekResults] using hm)

/-- C6: a `Read` call that returns `(n, err)` leaves `pos` at the old `pos` plus `n`, in the
arithmetic of an `int64` and so exactly whenever that sum is an `int64`; `pos` is unchanged
when `Read` returns 0 with the error of `wait`. A `Seek` that succeeds with `ret` leaves
`pos = ret`, a `Seek` that fails leaves `pos` unchanged. Hence after `Open` and any sequence
of `Read` and `Seek` calls, `pos` is the result of the last successful `Seek` (0 if there is
none) plus the sum of the `n` returned by the `Read` calls since. -/
theorem pos_is_bytes_since_seek :
    (∀ (os : OS) (fuel : Nat) (f : File) (r : ReadResult),
      f.Read os fuel = some r → isInt64 f.pos →
        r.file.pos = wrap64 (f.pos + r.n) ∧
        (isInt64 (f.pos + r.n) → r.file.pos = f.pos + r.n) ∧
        (∀ pre b, r.trace = pre ++ [.wait b r.err] → r.n = 0 ∧ r.file.pos = f.pos)) ∧
    (∀ (f : File) (offset whence ret : Int),
      (f.Seek offset whence ret none).1 = ret ∧ (f.Seek offset whence ret none).2.2.pos = ret) ∧
    (∀ (f : File) (offset whence ret : Int) (e : Err),
      (f.Seek offset whence ret (some e)).2.2.pos = f.pos) ∧
    (∀ (name : String) (info : FileInfo) (f g : File) (cs : List Call) (log : List Returned),
      Open name none (.ok info) = .ok f → f.calls cs = some (g, log) →
      (∀ ret ∈ seekResults log, isInt64 ret) →
        g.pos = wrap64 ((accounted log).1 + (accounted log).2) ∧
        (isInt64 ((accounted log).1 + (accounted log).2) →
          g.pos = (accounted log).1 + (accounted log).2)) := by
  refine ⟨?_, fun f offset whence ret => ⟨rfl, rfl⟩, fun f offset whence ret e => rfl, ?_⟩
  · intro os fuel f r h hin
    have hpos : r.file.pos = wrap64 (f.pos + r.n) := by
      rcases readFrom_pos fuel _ _ _ _ h with ⟨h3, -⟩ | ⟨h3, h4, -⟩
      · exact h3
      · rw [h3, h4]; simp [wrap64_of_isInt64 hin]
    refine ⟨hpos, fun hr => by rw [hpos, wrap64_of_isInt64 hr], ?_⟩
    intro pre b ht
    rcases readFrom_pos fuel _ _ _ _ h with ⟨-, pre1, ht1⟩ | ⟨h3, h4, -⟩
    · rw [ht1] at ht
      have := congrArg List.getLast? ht
      simp at this
    · exact ⟨h4, h3⟩
  · intro name info f g cs log hopen hcalls hret
    simp only [Open, Except.ok.injEq] at hopen
    subst hopen
    have key := calls_account cs _ g log (0, 0) hcalls (by unfold isInt64; simp)
      (by simp [wrap64]) hret
    exact ⟨key, fun hr => by rw [key]; exact wrap64_of_isInt64 hr⟩

/-- C6, at `log`: a read of 5 bytes, a `Seek` to 100, a read of 5 bytes and a `Seek` that
fails leave `pos = 100 + 5`. -/
theorem pos_is_bytes_since_seek_witness :
    Open "log" none (.ok ⟨0, 1⟩) = .ok openedLog ∧
      openedLog.calls [.read fiveBytesOS 1, .seek 100 0 100 none, .read fiveBytesOS 1,
          .seek 0 7 0 (some (.other 3))] =
        some ({ openedLog with pos := 105 },
          [.read 5 none, .seek 100 none, .read 5 none, .seek 0 (some (.other 3))]) ∧
      accounted [.read 5 none, .seek 100 none, .read 5 none, .seek 0 (some (.other 3))] =
        (100, 5) ∧
      (105 : Int) = 100 + 5 :=
  ⟨rfl, rfl, rfl,
    (pos_is_bytes_since_seek.2.2.2 "log" ⟨0, 1⟩ openedLog { openedLog with pos := 105 }
      [.read fiveBytesOS 1, .seek 100 0 100 none, .read fiveBytesOS 1,
        .seek 0 7 0 (some (.other 3))]
      [.read 5 none, .seek 100 none, .read 5 none, .seek 0 (some (.other 3))] rfl rfl
      (by decide)).2 (by decide)⟩

end Follower
